import Mathlib

/-!
# Mount Doom distance tracker — verification of the core logic

This file is a shallow embedding of the two React variants of the
"Journey to Mount Doom" progress tracker:

* namespace `Backup` embeds `src/src/backup.jsx` (storage key
  `mount-doom-tracker-v2`): milestone table, clamp, percent-to-goal,
  ramp-plan engine (`getStageForDayIndex`, `isActiveDay`,
  `plannedMilesThroughDate`), the `addLog` handler, and the persisted
  record (serialize on every change, load with field-wise defaults).
* namespace `V9` embeds the unnamed source file (storage key
  `mount-doom-tracker-v9`): milestone resolvers
  (`getUnlockedMilestone`, `getNextMilestone`), the entry ledger and its
  handlers (`addMiles`, `saveEditLast`, `deleteLast`).

Modelling conventions:

* JS numbers are modelled as `ℚ`; `NaN`/non-finite parse results are
  modelled as `Option ℚ = none` (the handlers guard with
  `isNaN(v) || v <= 0` resp. `!Number.isFinite(m) || m <= 0`).
* Calendar dates are modelled as integer day numbers (`ℤ`): the JS code
  normalises ISO dates to midnight and compares / subtracts them, so the
  order and day-difference structure is exactly that of `ℤ`.
* The source functions close over module-level constants
  (`MILESTONES`, `DEFAULT_MILESTONES`); here the table is an explicit
  first argument, and the concrete tables are defined verbatim.
* React state updates (`setLogs`, `setEntries`, `setToast`) are modelled
  by returning the new collection plus the toast decision; a handler
  that returns early without calling a setter returns the state
  unchanged.  Every handler is a total Lean function, which models the
  source's "no exception escapes the handler" behaviour.
* `JSON.stringify`/`JSON.parse` round-tripping of the persisted record
  is modelled on a JSON value tree (`Json`); `safeParse` failure or a
  missing record is modelled as `none`.
-/

/-- One row of the milestone table: `{ id, name, miles, event, reward }`. -/
structure Milestone where
  id : String
  name : String
  miles : ℚ
  event : String
  reward : String
deriving DecidableEq, Inhabited

namespace V9

/-- The `MILESTONES` constant of the v9 variant. -/
def MILESTONES : List Milestone := [
  { id := "shire", name := "The Shire (Bag End)", miles := 0, event := "The journey begins.", reward := "Pick your playlist." },
  { id := "bree", name := "Bree", miles := 120, event := "You have left comfort behind.", reward := "Treat yourself to coffee." },
  { id := "rivendell", name := "Rivendell", miles := 570, event := "A place of rest.", reward := "Buy something new for walking." },
  { id := "moria", name := "Moria", miles := 1030, event := "A tough stretch.", reward := "Movie night: Fellowship." },
  { id := "lothlorien", name := "Lothlórien", miles := 1120, event := "A calm after darkness.", reward := "Stretch + rest day." },
  { id := "gondor", name := "Gondor", miles := 1400, event := "The final push begins.", reward := "New audiobook." },
  { id := "mountdoom", name := "Mount Doom", miles := 1800, event := "The Ring is destroyed.", reward := "Celebrate big." }]

/-- `getUnlockedMilestone(miles)`:
`[...MILESTONES].reverse().find(m => miles >= m.miles) || MILESTONES[0]`.
The table is passed explicitly (the source closes over `MILESTONES`). -/
def getUnlockedMilestone (table : List Milestone) (miles : ℚ) : Milestone :=
  (table.reverse.find? (fun m => decide (m.miles ≤ miles))).getD (table.headD default)

/-- `getNextMilestone(miles)`: `MILESTONES.find(m => m.miles > miles) || null`. -/
def getNextMilestone (table : List Milestone) (miles : ℚ) : Option Milestone :=
  table.find? (fun m => decide (miles < m.miles))

/-- A ledger entry of the v9 variant:
`{ id: crypto.randomUUID(), miles, date: new Date().toISOString(), edited }`. -/
structure Entry where
  id : String
  miles : ℚ
  date : String
  edited : Bool
deriving DecidableEq

/-- `totalMiles`: `entries.reduce((sum, e) => sum + e.miles, 0)`. -/
def totalMiles (entries : List Entry) : ℚ :=
  (entries.map Entry.miles).sum

/-- `lastEntry`: `entries[entries.length - 1]` (`undefined` on an empty ledger). -/
def lastEntry (entries : List Entry) : Option Entry :=
  entries.getLast?

/-- Result of a ledger handler: the new `entries` state plus the milestone
passed to `showRewardToast` (`none` when no reward toast is raised). -/
structure HandlerResult where
  entries : List Entry
  toastMilestone : Option Milestone
deriving DecidableEq

/-- The `addMiles` handler.  `value` models `parseFloat(inputMiles)`
(`none` = `NaN`); `newId`/`newDate` model `crypto.randomUUID()` and
`new Date().toISOString()`.  Guard: `if (isNaN(value) || value <= 0) return`;
otherwise the entry is appended and `showRewardToast(nextUnlocked)` fires
iff `nextUnlocked.id !== prevUnlocked.id`. -/
def addMiles (table : List Milestone) (entries : List Entry)
    (value : Option ℚ) (newId newDate : String) : HandlerResult :=
  match value with
  | none => ⟨entries, none⟩
  | some v =>
    if v ≤ 0 then ⟨entries, none⟩
    else
      let prevTotal := totalMiles entries
      let nextTotal := prevTotal + v
      let prevUnlocked := getUnlockedMilestone table prevTotal
      let nextUnlocked := getUnlockedMilestone table nextTotal
      ⟨entries ++ [⟨newId, v, newDate, false⟩],
       if nextUnlocked.id ≠ prevUnlocked.id then some nextUnlocked else none⟩

/-- The `saveEditLast` handler.  `value` models `parseFloat(editMiles)`.
Guard: `if (isNaN(value) || value <= 0 || !lastEntry) return`; otherwise the
last entry is replaced by `{ ...last, miles: value, edited: true }`, and the
reward toast fires iff `nextTotal > prevTotal && nextUnlocked.id !== prevUnlocked.id`. -/
def saveEditLast (table : List Milestone) (entries : List Entry)
    (value : Option ℚ) : HandlerResult :=
  match value with
  | none => ⟨entries, none⟩
  | some v =>
    if v ≤ 0 then ⟨entries, none⟩
    else
      match entries.getLast? with
      | none => ⟨entries, none⟩
      | some last =>
        let prevTotal := totalMiles entries
        let nextTotal := prevTotal - last.miles + v
        let prevUnlocked := getUnlockedMilestone table prevTotal
        let nextUnlocked := getUnlockedMilestone table nextTotal
        ⟨entries.dropLast ++ [{ last with miles := v, edited := true }],
         if prevTotal < nextTotal ∧ nextUnlocked.id ≠ prevUnlocked.id
           then some nextUnlocked else none⟩

/-- The `deleteLast` handler: `if (!lastEntry) return; setEntries(prev => prev.slice(0, -1))`. -/
def deleteLast (entries : List Entry) : List Entry :=
  match entries.getLast? with
  | none => entries
  | some _ => entries.dropLast

end V9

namespace Backup

/-- The `DEFAULT_MILESTONES` constant of the backup variant. -/
def DEFAULT_MILESTONES : List Milestone := [
  { id := "shire", name := "The Shire (Bag End)", miles := 0, event := "The journey begins.", reward := "Pick your playlist." },
  { id := "bree", name := "Bree", miles := 120, event := "You have left comfort behind.", reward := "Treat yourself to coffee." },
  { id := "rivendell", name := "Rivendell", miles := 570, event := "A place of rest.", reward := "Buy something new for walking." },
  { id := "moria", name := "Moria", miles := 1030, event := "A tough stretch.", reward := "Movie night: Fellowship." },
  { id := "lorien", name := "Lothlórien", miles := 1135, event := "Calm checkpoint.", reward := "Take a peaceful walk." },
  { id := "rauros", name := "Rauros", miles := 1540, event := "Hard part begins.", reward := "Write a note to future you." },
  { id := "blackgate", name := "Black Gate", miles := 1685, event := "Final stretch.", reward := "Favorite meal." },
  { id := "cirith", name := "Cirith Ungol", miles := 1740, event := "Rough climb.", reward := "Light day and rest." },
  { id := "doom", name := "Mount Doom", miles := 1800, event := "Quest complete.", reward := "Big celebration." }]

/-- One ramp stage: `{ weeks, milesPerDay }`. -/
structure RampStage where
  weeks : ℕ
  milesPerDay : ℚ
deriving DecidableEq

/-- The `DEFAULT_RAMP_STAGES` constant: 4-week blocks, then cap at 5. -/
def DEFAULT_RAMP_STAGES : List RampStage :=
  [⟨4, 2⟩, ⟨4, 5/2⟩, ⟨4, 3⟩, ⟨4, 7/2⟩, ⟨4, 4⟩, ⟨4, 9/2⟩]

/-- `clamp(n, min, max) = Math.max(min, Math.min(max, n))`. -/
def clamp (n lo hi : ℚ) : ℚ :=
  max lo (min hi n)

/-- `progressPct`: `denom = Number(goalMiles) || 1; clamp((totalMiles / denom) * 100, 0, 100)`.
The JS `|| 1` replaces a zero (or `NaN`) goal by 1 and keeps every other
goal value as the denominator. -/
def progressPct (totalMiles goalMiles : ℚ) : ℚ :=
  clamp (totalMiles / (if goalMiles = 0 then 1 else goalMiles) * 100) 0 100

/-- A log row of the backup variant: `{ id, date, miles }` (no `edited` field).
`date` is the entry date as a day number. -/
structure Log where
  id : String
  date : ℤ
  miles : ℚ
deriving DecidableEq

/-- `totalMiles`: `logs.reduce((s, r) => s + Number(r.miles || 0), 0)`. -/
def totalMiles (logs : List Log) : ℚ :=
  (logs.map Log.miles).sum

/-- `nextMilestone`: `milestones.find(m => totalMiles < m.miles) ?? null`. -/
def nextMilestone (table : List Milestone) (totalMiles : ℚ) : Option Milestone :=
  table.find? (fun m => decide (totalMiles < m.miles))

/-- `reachedMilestones`: `milestones.filter(m => totalMiles >= m.miles)`. -/
def reachedMilestones (table : List Milestone) (totalMiles : ℚ) : List Milestone :=
  table.filter (fun m => decide (m.miles ≤ totalMiles))

/-- `lastReached`: `reachedMilestones.at(-1) ?? milestones[0]`. -/
def lastReached (table : List Milestone) (totalMiles : ℚ) : Milestone :=
  (reachedMilestones table totalMiles).getLast?.getD (table.headD default)

/-- `daysDiffInclusive(start, end)`: whole-day difference plus one
(`Math.floor((b - a) / day) + 1` on midnight-normalised dates). -/
def daysDiffInclusive (startDay endDay : ℤ) : ℤ :=
  (endDay - startDay) + 1

/-- Walk of `getStageForDayIndex`: subtract `weeks * 7` per stage until the
remaining offset falls inside a stage; past the last stage the rate is `null`. -/
def getStageForDayIndexGo (remaining i : ℕ) : List RampStage → ℕ × Option ℚ
  | [] => (i, none)
  | s :: rest =>
    if remaining < s.weeks * 7 then (i, some s.milesPerDay)
    else getStageForDayIndexGo (remaining - s.weeks * 7) (i + 1) rest

/-- `getStageForDayIndex(dayIndex, stages)`: returns
`{ stageIndex, milesPerDay }`, with `milesPerDay = null` past the last stage. -/
def getStageForDayIndex (dayIndex : ℕ) (stages : List RampStage) : ℕ × Option ℚ :=
  getStageForDayIndexGo dayIndex 0 stages

/-- `isActiveDay(dayIndex, daysPerWeek)`: `dayIndex % 7 < daysPerWeek`. -/
def isActiveDay (dayIndex daysPerWeek : ℕ) : Bool :=
  decide (dayIndex % 7 < daysPerWeek)

/-- The per-day rate added inside the `plannedMilesThroughDate` loop:
`stageInfo.milesPerDay ?? capMiles` (the spec calls this `stageAt`). -/
def stageAt (stages : List RampStage) (capMiles : ℚ) (dayIndex : ℕ) : ℚ :=
  ((getStageForDayIndex dayIndex stages).2).getD capMiles

/-- `plannedMilesThroughDate`: 0 when the target date precedes the plan
start; otherwise the loop `for i in [0, totalDays)` adds the stage rate
(or the cap) for every active day. -/
def plannedMilesThroughDate (planStart target : ℤ) (stages : List RampStage)
    (capMiles : ℚ) (daysPerWeek : ℕ) : ℚ :=
  if target < planStart then 0
  else
    ∑ i ∈ Finset.range (daysDiffInclusive planStart target).toNat,
      if isActiveDay i daysPerWeek then stageAt stages capMiles i else 0

/-- `todaysPlannedMiles`: the single day's rate (0 before the start or on an
inactive day). -/
def todaysPlannedMiles (planStart today : ℤ) (stages : List RampStage)
    (capMiles : ℚ) (daysPerWeek : ℕ) : ℚ :=
  if today < planStart then 0
  else
    let dayIndex := (daysDiffInclusive planStart today - 1).toNat
    if isActiveDay dayIndex daysPerWeek then stageAt stages capMiles dayIndex else 0

/-- The `newly` filter inside `addLog`:
`milestones.filter(x => before < x.miles && after >= x.miles)`
(the spec calls this `crossed(prevTotal, nextTotal)`). -/
def crossed (table : List Milestone) (before after : ℚ) : List Milestone :=
  table.filter (fun x => decide (before < x.miles ∧ x.miles ≤ after))

/-- The sort order of the stored log list:
`(a, b) => b.date.localeCompare(a.date)` sorts by date descending. -/
def dateDesc (a b : Log) : Prop :=
  b.date ≤ a.date

instance : DecidableRel dateDesc :=
  fun a b => inferInstanceAs (Decidable (b.date ≤ a.date))

instance : IsTotal Log dateDesc :=
  ⟨fun a b => Int.le_total b.date a.date⟩

instance : IsTrans Log dateDesc :=
  ⟨fun _ _ _ h1 h2 => le_trans h2 h1⟩

/-- The stored-list update of `addLog`:
`setLogs(prev => [...prev, newLog].sort((a, b) => b.date.localeCompare(a.date)))`
(a stable sort by date descending). -/
def addLogLogs (logs : List Log) (newLog : Log) : List Log :=
  List.insertionSort dateDesc (logs ++ [newLog])

/-- The toast set by `addLog` (abstracting the message strings): the error
toast, the milestone-unlock toast, the "miles to next milestone" toast, or
the "Quest complete" toast. -/
inductive AddLogToast where
  | invalid
  | unlocked (m : Milestone)
  | loggedNext (m : Milestone)
  | questComplete
deriving DecidableEq

/-- Result of `addLog`: the new `logs` state and the toast. -/
structure AddLogResult where
  logs : List Log
  toast : AddLogToast
deriving DecidableEq

/-- The `addLog` handler.  `entryMiles` models `Number(entryMiles)`
(`none` = not a finite number); guard `if (!Number.isFinite(m) || m <= 0)`.
On success the new log is appended and the stored list re-sorted by date
descending; the toast names `newly.at(-1)` when milestones were crossed,
else the pre-add `nextMilestone`, else quest completion. -/
def addLog (table : List Milestone) (logs : List Log)
    (entryMiles : Option ℚ) (newId : String) (entryDate : ℤ) : AddLogResult :=
  match entryMiles with
  | none => ⟨logs, .invalid⟩
  | some m =>
    if m ≤ 0 then ⟨logs, .invalid⟩
    else
      let before := totalMiles logs
      let after := before + m
      let newly := crossed table before after
      let newLog : Log := ⟨newId, entryDate, m⟩
      ⟨addLogLogs logs newLog,
        match newly.getLast? with
        | some last => .unlocked last
        | none =>
          match nextMilestone table before with
          | some nm => .loggedNext nm
          | none => .questComplete⟩

/-! ### The persisted record

`useEffect` writes `JSON.stringify({goalMiles, goalDate, logs, planEnabled,
planStartDate, capMiles, daysPerWeek, rampStages})` under `STORAGE_KEY`;
startup reads it back through `safeParse` (`JSON.parse` in a `try`, yielding
the fallback `null` on failure) and takes each field with `saved?.field ?? default`.
The JSON text layer is modelled by a JSON value tree `Json`; a missing record
or a `safeParse` failure is `none`. -/

/-- A JSON value, as produced by `JSON.parse`. -/
inductive Json where
  | null
  | bool (b : Bool)
  | num (q : ℚ)
  | str (s : String)
  | arr (items : List Json)
  | obj (fields : List (String × Json))

/-- Property access `j?.key`: a field lookup that yields `none`
(JS `undefined`) on a non-object or a missing key. -/
def jsonGet (j : Json) (key : String) : Option Json :=
  match j with
  | .obj fields => fields.lookup key
  | _ => none

/-- Coercion of a JSON value to a number state field (the stored field is a
JS number; anything else is not produced by the serializer). -/
def jsonNum : Json → Option ℚ
  | .num q => some q
  | _ => none

/-- Coercion of a JSON value to a boolean state field. -/
def jsonBool : Json → Option Bool
  | .bool b => some b
  | _ => none

/-- Coercion of a JSON value to a string state field. -/
def jsonStr : Json → Option String
  | .str s => some s
  | _ => none

/-- Coercion of a JSON number to an integer day number. -/
def jsonInt (j : Json) : Option ℤ :=
  match j with
  | .num q => if q.den = 1 then some q.num else none
  | _ => none

/-- Coercion of a JSON number to a week count. -/
def jsonNat (j : Json) : Option ℕ :=
  match j with
  | .num q => if q.den = 1 ∧ 0 ≤ q.num then some q.num.toNat else none
  | _ => none

/-- Serialization of one log row: `{ id, date, miles }`. -/
def encodeLog (l : Log) : Json :=
  .obj [("id", .str l.id), ("date", .num l.date), ("miles", .num l.miles)]

/-- Deserialization of one stored log row. -/
def decodeLog (j : Json) : Option Log := do
  let id ← (jsonGet j "id").bind jsonStr
  let date ← (jsonGet j "date").bind jsonInt
  let miles ← (jsonGet j "miles").bind jsonNum
  pure ⟨id, date, miles⟩

/-- Serialization of one ramp stage: `{ weeks, milesPerDay }`. -/
def encodeRampStage (s : RampStage) : Json :=
  .obj [("weeks", .num s.weeks), ("milesPerDay", .num s.milesPerDay)]

/-- Deserialization of one stored ramp stage. -/
def decodeRampStage (j : Json) : Option RampStage := do
  let weeks ← (jsonGet j "weeks").bind jsonNat
  let milesPerDay ← (jsonGet j "milesPerDay").bind jsonNum
  pure ⟨weeks, milesPerDay⟩

/-- Deserialization of the stored log array. -/
def decodeLogs (j : Json) : Option (List Log) :=
  match j with
  | .arr items => items.mapM decodeLog
  | _ => none

/-- Deserialization of the stored ramp-stage array. -/
def decodeRampStages (j : Json) : Option (List RampStage) :=
  match j with
  | .arr items => items.mapM decodeRampStage
  | _ => none

/-- The application state that the persistence `useEffect` serializes:
`{goalMiles, goalDate, logs, planEnabled, planStartDate, capMiles,
daysPerWeek, rampStages}`.  Dates are day numbers. -/
structure SavedState where
  goalMiles : ℚ
  goalDate : ℤ
  logs : List Log
  planEnabled : Bool
  planStartDate : ℤ
  capMiles : ℚ
  daysPerWeek : ℚ
  rampStages : List RampStage
deriving DecidableEq

/-- The default goal date `"2027-10-12"` as a day number (days since the
Unix epoch). -/
def GOAL_DATE_DEFAULT : ℤ := 21104

/-- The serializer: the object literal passed to `JSON.stringify` in the
persistence `useEffect`. -/
def encodeState (s : SavedState) : Json :=
  .obj [("goalMiles", .num s.goalMiles),
        ("goalDate", .num s.goalDate),
        ("logs", .arr (s.logs.map encodeLog)),
        ("planEnabled", .bool s.planEnabled),
        ("planStartDate", .num s.planStartDate),
        ("capMiles", .num s.capMiles),
        ("daysPerWeek", .num s.daysPerWeek),
        ("rampStages", .arr (s.rampStages.map encodeRampStage))]

/-- JS `x ?? d` on a looked-up field: the default applies only when the
field is missing (`undefined`) or `null`; any other present value — of
whatever type — is kept as-is. -/
def nullish (j : Option Json) (d : Json) : Json :=
  match j with
  | none => d
  | some .null => d
  | some v => v

/-- The raw JS values the eight `useState` initialisers receive on load.
The source performs no shape validation, so each field is an arbitrary
JSON value. -/
structure RawLoadedState where
  goalMiles : Json
  goalDate : Json
  logs : Json
  planEnabled : Json
  planStartDate : Json
  capMiles : Json
  daysPerWeek : Json
  rampStages : Json

/-- The loader: `saved = safeParse(localStorage.getItem(STORAGE_KEY), null)`
followed by the `useState(saved?.field ?? default)` initialisers, exactly
as written: a present field of the wrong shape is kept as-is; only a
missing record, an unparsable record, or a missing/`null` field falls back
to the default.  `today` models `todayISO()`, the default plan start
date. -/
def loadRaw (today : ℤ) (saved : Option Json) : RawLoadedState where
  goalMiles := nullish (saved.bind (jsonGet · "goalMiles")) (.num 1800)
  goalDate := nullish (saved.bind (jsonGet · "goalDate")) (.num GOAL_DATE_DEFAULT)
  logs := nullish (saved.bind (jsonGet · "logs")) (.arr [])
  planEnabled := nullish (saved.bind (jsonGet · "planEnabled")) (.bool true)
  planStartDate := nullish (saved.bind (jsonGet · "planStartDate")) (.num today)
  capMiles := nullish (saved.bind (jsonGet · "capMiles")) (.num 5)
  daysPerWeek := nullish (saved.bind (jsonGet · "daysPerWeek")) (.num 7)
  rampStages := nullish (saved.bind (jsonGet · "rampStages")) (.arr (DEFAULT_RAMP_STAGES.map encodeRampStage))

/-- The raw field values when nothing usable was stored: the `useState`
defaults. -/
def defaultRaw (today : ℤ) : RawLoadedState :=
  ⟨.num 1800, .num GOAL_DATE_DEFAULT, .arr [], .bool true, .num today,
   .num 5, .num 7, .arr (DEFAULT_RAMP_STAGES.map encodeRampStage)⟩

/-- The raw JSON field values of a well-formed state — exactly the fields
`encodeState` stores. -/
def rawOfState (s : SavedState) : RawLoadedState :=
  ⟨.num s.goalMiles, .num s.goalDate, .arr (s.logs.map encodeLog),
   .bool s.planEnabled, .num s.planStartDate, .num s.capMiles,
   .num s.daysPerWeek, .arr (s.rampStages.map encodeRampStage)⟩

/-- Typed reading of the raw loaded fields, the way the rest of the app
consumes them (as a number, a log array, a stage array, ...); `none`
models a runtime type error upon that use (e.g. `logs.reduce` on a
non-array). -/
def stateOfRaw (r : RawLoadedState) : Option SavedState := do
  let gm ← jsonNum r.goalMiles
  let gd ← jsonInt r.goalDate
  let lg ← decodeLogs r.logs
  let pe ← jsonBool r.planEnabled
  let ps ← jsonInt r.planStartDate
  let cm ← jsonNum r.capMiles
  let dw ← jsonNum r.daysPerWeek
  let rs ← decodeRampStages r.rampStages
  pure ⟨gm, gd, lg, pe, ps, cm, dw, rs⟩

end Backup

/-! ## Shared lemmas -/

/-- Searching a reversed list for the first match finds the last match of
the original list. -/
theorem reverse_find_eq_filter_getLast {α : Type} (l : List α) (p : α → Bool) :
    l.reverse.find? p = (l.filter p).getLast? := by
  induction l using List.reverseRecOn with
  | nil => rfl
  | append_singleton l' a ih =>
    have hrev : (l' ++ [a]).reverse = a :: l'.reverse := by
      rw [List.reverse_append]
      rfl
    rw [hrev, List.filter_append]
    by_cases hpa : p a = true
    · rw [List.find?_cons_of_pos _ hpa]
      have hfa : List.filter p [a] = [a] := by simp [hpa]
      rw [hfa, List.getLast?_concat]
    · rw [List.find?_cons_of_neg _ hpa]
      have hfa : List.filter p [a] = [] := by simp [hpa]
      rw [hfa, List.append_nil, ih]

/-- In a list strictly sorted by threshold, every element's threshold is at
most the last element's threshold. -/
theorem miles_le_getLast?_of_sorted {l : List Milestone}
    (hs : l.Pairwise (fun a b => a.miles < b.miles)) {m : Milestone}
    (hm : l.getLast? = some m) : ∀ x ∈ l, x.miles ≤ m.miles := by
  induction l using List.reverseRecOn with
  | nil => cases hm
  | append_singleton l' b _ =>
    rw [List.getLast?_concat] at hm
    have hbm : b = m := Option.some.inj hm
    intro x hx
    rcases List.mem_append.1 hx with hx | hx
    · exact hbm ▸ le_of_lt ((List.pairwise_append.1 hs).2.2 x hx b (List.mem_singleton_self b))
    · rw [List.mem_singleton] at hx
      exact le_of_eq (congrArg Milestone.miles (hx.trans hbm))

/-- `getLast` form of `miles_le_getLast?_of_sorted`. -/
theorem miles_le_getLast_of_sorted {l : List Milestone}
    (hs : l.Pairwise (fun a b => a.miles < b.miles)) (h : l ≠ []) :
    ∀ x ∈ l, x.miles ≤ (l.getLast h).miles :=
  miles_le_getLast?_of_sorted hs (List.getLast?_eq_getLast l h)

/-- In a list strictly sorted by threshold, elements are determined by
their threshold. -/
theorem eq_of_mem_of_sorted_of_miles_eq {l : List Milestone}
    (hs : l.Pairwise (fun a b => a.miles < b.miles))
    {a b : Milestone} (ha : a ∈ l) (hb : b ∈ l) (hm : a.miles = b.miles) :
    a = b := by
  induction l with
  | nil => cases ha
  | cons c l ih =>
    rcases List.mem_cons.1 ha with rfl | ha' <;>
      rcases List.mem_cons.1 hb with h | hb'
    · exact h.symm
    · exact absurd hm (ne_of_lt ((List.pairwise_cons.1 hs).1 b hb'))
    · exact absurd hm.symm (ne_of_lt (h ▸ (List.pairwise_cons.1 hs).1 a ha'))
    · exact ih (List.pairwise_cons.1 hs).2 ha' hb'

/-- In a list strictly sorted by threshold, `find?` for "threshold above `t`"
returns a minimiser among all elements above `t`. -/
theorem find_first_gt_minimal {l : List Milestone}
    (hs : l.Pairwise (fun a b => a.miles < b.miles)) {t : ℚ} {m : Milestone}
    (hf : l.find? (fun x => decide (t < x.miles)) = some m) :
    ∀ m' ∈ l, t < m'.miles → m.miles ≤ m'.miles := by
  induction l with
  | nil => cases hf
  | cons c l ih =>
    by_cases hc : t < c.miles
    · rw [List.find?_cons_of_pos _ (by simpa using hc)] at hf
      cases hf
      intro m' hm' _
      rcases List.mem_cons.1 hm' with rfl | hm'
      · exact le_refl _
      · exact le_of_lt ((List.pairwise_cons.1 hs).1 m' hm')
    · rw [List.find?_cons_of_neg _ (by simpa using hc)] at hf
      intro m' hm' ht
      rcases List.mem_cons.1 hm' with rfl | hm'
      · exact absurd ht hc
      · exact ih (List.pairwise_cons.1 hs).2 hf m' hm' ht

/-- When any reachable milestone exists, `getUnlockedMilestone` is the last
milestone in table order whose threshold is at most the total. -/
theorem getUnlockedMilestone_eq_getLast (table : List Milestone) (t : ℚ)
    (h : table.filter (fun m => decide (m.miles ≤ t)) ≠ []) :
    V9.getUnlockedMilestone table t
      = (table.filter (fun m => decide (m.miles ≤ t))).getLast h := by
  unfold V9.getUnlockedMilestone
  rw [reverse_find_eq_filter_getLast, List.getLast?_eq_getLast _ h]
  rfl

/-- The reached-milestone filter is nonempty whenever the table's first
entry has threshold 0 and the total is nonnegative. -/
theorem reached_filter_ne_nil {table : List Milestone} {m0 : Milestone}
    (hhead : table.head? = some m0) (h0 : m0.miles = 0) {t : ℚ} (ht : 0 ≤ t) :
    table.filter (fun m => decide (m.miles ≤ t)) ≠ [] := by
  have hmem : m0 ∈ table := List.mem_of_mem_head? hhead
  have : m0 ∈ table.filter (fun m => decide (m.miles ≤ t)) :=
    List.mem_filter.2 ⟨hmem, by simp [h0, ht]⟩
  exact List.ne_nil_of_mem this

/-- Elements of the `crossed` filter, characterised. -/
theorem mem_crossed {table : List Milestone} {before after : ℚ} {m : Milestone} :
    m ∈ Backup.crossed table before after
      ↔ m ∈ table ∧ before < m.miles ∧ m.miles ≤ after := by
  simp [Backup.crossed, List.mem_filter]

/-- When at least one milestone is crossed between two totals, resolving the
unlocked milestone at the larger total gives exactly the last crossed
milestone (the table being strictly sorted by threshold). -/
theorem unlocked_eq_crossed_getLast {table : List Milestone}
    (hs : table.Pairwise (fun a b => a.miles < b.miles))
    {before after : ℚ}
    (hc : Backup.crossed table before after ≠ []) :
    V9.getUnlockedMilestone table after
      = (Backup.crossed table before after).getLast hc := by
  set B := Backup.crossed table before after with hB
  set A := table.filter (fun m => decide (m.miles ≤ after)) with hA
  have hsubBA : ∀ x ∈ B, x ∈ A := by
    intro x hx
    rcases mem_crossed.1 hx with ⟨hxt, _, hxa⟩
    exact List.mem_filter.2 ⟨hxt, by simpa using hxa⟩
  have hAs : A.Pairwise (fun a b => a.miles < b.miles) := List.Pairwise.filter _ hs
  have hBs : B.Pairwise (fun a b => a.miles < b.miles) := List.Pairwise.filter _ hs
  have hbB : B.getLast hc ∈ B := List.getLast_mem hc
  have hAne : A ≠ [] := List.ne_nil_of_mem (hsubBA _ hbB)
  rw [getUnlockedMilestone_eq_getLast table after hAne]
  -- the last reached milestone is itself a crossed milestone
  have hlastA_mem : A.getLast hAne ∈ A := List.getLast_mem hAne
  have hlastA_table : A.getLast hAne ∈ table := (List.mem_filter.1 hlastA_mem).1
  have hlastA_le : (A.getLast hAne).miles ≤ after := by
    have := (List.mem_filter.1 hlastA_mem).2
    simpa using this
  have hb_le_lastA : (B.getLast hc).miles ≤ (A.getLast hAne).miles :=
    miles_le_getLast_of_sorted hAs hAne _ (hsubBA _ hbB)
  have hb_gt : before < (B.getLast hc).miles := (mem_crossed.1 hbB).2.1
  have hlastA_B : A.getLast hAne ∈ B :=
    mem_crossed.2 ⟨hlastA_table, lt_of_lt_of_le hb_gt hb_le_lastA, hlastA_le⟩
  have hlastA_le_b : (A.getLast hAne).miles ≤ (B.getLast hc).miles :=
    miles_le_getLast_of_sorted hBs hc _ hlastA_B
  have hmeq : (A.getLast hAne).miles = (B.getLast hc).miles :=
    le_antisymm hlastA_le_b hb_le_lastA
  exact eq_of_mem_of_sorted_of_miles_eq hs hlastA_table
    (mem_crossed.1 hbB).1 hmeq

/-- When at least one milestone is crossed between two totals, the totals
strictly increase and the unlocked milestone changes: the new one is the
last crossed milestone, and (with pairwise-distinct ids) its id differs
from the previously unlocked milestone's id — the condition both v9
handlers use to decide whether to raise the reward toast. -/
theorem unlocked_change {table : List Milestone} {m0 : Milestone}
    (hs : table.Pairwise (fun a b => a.miles < b.miles))
    (hnodup : (table.map Milestone.id).Nodup)
    (hhead : table.head? = some m0) (h0 : m0.miles = 0)
    {prev next : ℚ} (hprev : 0 ≤ prev)
    (hc : Backup.crossed table prev next ≠ []) :
    prev < next ∧
    V9.getUnlockedMilestone table next = (Backup.crossed table prev next).getLast hc ∧
    (V9.getUnlockedMilestone table next).id ≠ (V9.getUnlockedMilestone table prev).id := by
  have hnext := unlocked_eq_crossed_getLast hs hc
  have hfprev : table.filter (fun m => decide (m.miles ≤ prev)) ≠ [] :=
    reached_filter_ne_nil hhead h0 hprev
  have hprevEq := getUnlockedMilestone_eq_getLast table prev hfprev
  have hprevMemF : V9.getUnlockedMilestone table prev
      ∈ table.filter (fun m => decide (m.miles ≤ prev)) := by
    rw [hprevEq]
    exact List.getLast_mem hfprev
  obtain ⟨hprevMem, hprevLeb⟩ := List.mem_filter.1 hprevMemF
  have hprevLe : (V9.getUnlockedMilestone table prev).miles ≤ prev := by
    simpa using hprevLeb
  have hlastMem := List.getLast_mem hc
  obtain ⟨hnextMem, hgt, hlenext⟩ := mem_crossed.1 hlastMem
  have hne : V9.getUnlockedMilestone table next
      ≠ V9.getUnlockedMilestone table prev := by
    intro heq
    have hle2 : (V9.getUnlockedMilestone table next).miles ≤ prev := heq ▸ hprevLe
    rw [hnext] at hle2
    exact absurd (lt_of_lt_of_le hgt hle2) (lt_irrefl _)
  refine ⟨lt_of_lt_of_le hgt hlenext, hnext, fun hid => ?_⟩
  exact hne (List.inj_on_of_nodup_map hnodup (hnext ▸ hnextMem) hprevMem hid)

/-- Decoding inverts encoding for one log row. -/
theorem decodeLog_encodeLog (l : Backup.Log) :
    Backup.decodeLog (Backup.encodeLog l) = some l := by
  simp [Backup.decodeLog, Backup.encodeLog, Backup.jsonGet, Backup.jsonStr,
    Backup.jsonInt, Backup.jsonNum, List.lookup]

/-- Decoding inverts encoding for one ramp stage. -/
theorem decodeRampStage_encodeRampStage (s : Backup.RampStage) :
    Backup.decodeRampStage (Backup.encodeRampStage s) = some s := by
  simp [Backup.decodeRampStage, Backup.encodeRampStage, Backup.jsonGet,
    Backup.jsonNat, Backup.jsonNum, List.lookup]

/-- Decoding inverts encoding for the stored log array. -/
theorem decodeLogs_encode (logs : List Backup.Log) :
    Backup.decodeLogs (.arr (logs.map Backup.encodeLog)) = some logs := by
  show (logs.map Backup.encodeLog).mapM Backup.decodeLog = some logs
  induction logs with
  | nil => rfl
  | cons l rest ih =>
    rw [List.map_cons, List.mapM_cons, decodeLog_encodeLog, ih]
    rfl

/-- Decoding inverts encoding for the stored ramp-stage array. -/
theorem decodeRampStages_encode (stages : List Backup.RampStage) :
    Backup.decodeRampStages (.arr (stages.map Backup.encodeRampStage)) = some stages := by
  show (stages.map Backup.encodeRampStage).mapM Backup.decodeRampStage = some stages
  induction stages with
  | nil => rfl
  | cons s rest ih =>
    rw [List.map_cons, List.mapM_cons, decodeRampStage_encodeRampStage, ih]
    rfl

/-- Past the cumulative length of all stages, the stage walk yields `null`. -/
theorem getStageForDayIndexGo_none {stages : List Backup.RampStage}
    {remaining : ℕ} (h : (stages.map (fun s => s.weeks * 7)).sum ≤ remaining)
    (i : ℕ) : (Backup.getStageForDayIndexGo remaining i stages).2 = none := by
  induction stages generalizing remaining i with
  | nil => rfl
  | cons s rest ih =>
    rw [List.map_cons, List.sum_cons] at h
    rw [Backup.getStageForDayIndexGo, if_neg (by omega)]
    exact ih (by omega) _

/-- The stage walk yields either `null` or the rate of one of the stages. -/
theorem getStageForDayIndexGo_mem {stages : List Backup.RampStage}
    {remaining i : ℕ} {q : ℚ}
    (h : (Backup.getStageForDayIndexGo remaining i stages).2 = some q) :
    ∃ s ∈ stages, s.milesPerDay = q := by
  induction stages generalizing remaining i with
  | nil => cases h
  | cons s rest ih =>
    rw [Backup.getStageForDayIndexGo] at h
    by_cases hlt : remaining < s.weeks * 7
    · rw [if_pos hlt] at h
      exact ⟨s, List.mem_cons_self .., by cases h; rfl⟩
    · rw [if_neg hlt] at h
      obtain ⟨s', hs', hq⟩ := ih h
      exact ⟨s', List.mem_cons_of_mem _ hs', hq⟩

/-- The per-day rate is nonnegative whenever the cap and every stage rate
are nonnegative. -/
theorem stageAt_nonneg {stages : List Backup.RampStage} {cap : ℚ}
    (hstages : ∀ s ∈ stages, 0 ≤ s.milesPerDay) (hcap : 0 ≤ cap) (d : ℕ) :
    0 ≤ Backup.stageAt stages cap d := by
  unfold Backup.stageAt Backup.getStageForDayIndex
  cases h : (Backup.getStageForDayIndexGo d 0 stages).2 with
  | none => simpa using hcap
  | some q =>
    obtain ⟨s, hs, hq⟩ := getStageForDayIndexGo_mem h
    simpa using hq ▸ hstages s hs

/-! ## The claims -/

/-- C1, counterexample: `progressPct` does not use `max(1, goalTarget)` as
the denominator.  At `totalDistance = 1/4` and `goalTarget = 1/2` the code
divides by `1/2` (the JS `|| 1` only replaces a zero/`NaN` goal) and yields
50, while the claimed formula yields 25. -/
theorem c1_percentToGoal_counterexample :
    Backup.progressPct (1/4) (1/2)
      ≠ Backup.clamp ((1/4) / max 1 (1/2) * 100) 0 100 := by
  norm_num [Backup.progressPct, Backup.clamp]

/-- C1, amended: the percent-to-goal value equals
`clamp(totalDistance / d * 100, 0, 100)` where the denominator `d` is the
goal target itself whenever it is nonzero (in particular for goal targets
strictly between 0 and 1) and 1 only for a zero goal; the result always
lies in [0, 100]. -/
theorem c1_percentToGoal_amended (total goal : ℚ) :
    (goal ≠ 0 → Backup.progressPct total goal = Backup.clamp (total / goal * 100) 0 100) ∧
    Backup.progressPct total 0 = Backup.clamp (total * 100) 0 100 ∧
    0 ≤ Backup.progressPct total goal ∧ Backup.progressPct total goal ≤ 100 := by
  refine ⟨fun h => by simp [Backup.progressPct, h], by simp [Backup.progressPct], ?_, ?_⟩
  · exact le_max_left _ _
  · exact max_le (by norm_num) (min_le_left _ _)

/-- C1 witness: the amended formula evaluated at `total = 1/4`,
`goal = 1/2`. -/
theorem c1_percentToGoal_amended_witness :
    Backup.progressPct (1/4) (1/2) = Backup.clamp ((1/4) / (1/2) * 100) 0 100 ∧
    0 ≤ Backup.progressPct (1/4) (1/2) :=
  ⟨(c1_percentToGoal_amended (1/4) (1/2)).1 (by norm_num),
   (c1_percentToGoal_amended (1/4) (1/2)).2.2.1⟩

/-- C3: `plannedMilesThroughDate` is 0 before the plan start, and otherwise
sums `stageAt(d)` over the active day offsets in
`[0, daysDiffInclusive(start, target))`; `stageAt` is the cap rate past the
last stage (so with no stages every active day contributes the cap); and
the two spec scenarios (7 stage days = 14.0; 7 stage days + 7 cap days
= 49.0) hold. -/
theorem c3_plannedThrough_spec (planStart target : ℤ) (stages : List Backup.RampStage)
    (cap : ℚ) (dpw : ℕ) :
    (target < planStart → Backup.plannedMilesThroughDate planStart target stages cap dpw = 0) ∧
    (planStart ≤ target →
      Backup.plannedMilesThroughDate planStart target stages cap dpw =
        ∑ d ∈ (Finset.range (Backup.daysDiffInclusive planStart target).toNat).filter
            (fun d => Backup.isActiveDay d dpw), Backup.stageAt stages cap d) ∧
    (∀ d : ℕ, (stages.map (fun s => s.weeks * 7)).sum ≤ d → Backup.stageAt stages cap d = cap) ∧
    (∀ d : ℕ, Backup.stageAt [] cap d = cap) ∧
    Backup.plannedMilesThroughDate 0 6 [⟨1, 2⟩] 5 7 = 14 ∧
    Backup.plannedMilesThroughDate 0 13 [⟨1, 2⟩] 5 7 = 49 := by
  refine ⟨fun h => by simp [Backup.plannedMilesThroughDate, h],
    fun h => ?_, fun d hd => ?_, fun d => rfl, ?_, ?_⟩
  · unfold Backup.plannedMilesThroughDate
    rw [if_neg (not_lt.2 h), Finset.sum_filter]
  · unfold Backup.stageAt Backup.getStageForDayIndex
    rw [getStageForDayIndexGo_none hd 0]
    rfl
  · unfold Backup.plannedMilesThroughDate
    rw [if_neg (by norm_num), show (Backup.daysDiffInclusive 0 6).toNat = 7 from by decide]
    norm_num [Finset.sum_range_succ, Backup.stageAt, Backup.getStageForDayIndex,
      Backup.getStageForDayIndexGo, Backup.isActiveDay]
  · unfold Backup.plannedMilesThroughDate
    rw [if_neg (by norm_num), show (Backup.daysDiffInclusive 0 13).toNat = 14 from by decide]
    norm_num [Finset.sum_range_succ, Backup.stageAt, Backup.getStageForDayIndex,
      Backup.getStageForDayIndexGo, Backup.isActiveDay]

/-- C3 witness: the spec scenario and the before-start case at concrete
inputs. -/
theorem c3_plannedThrough_spec_witness :
    Backup.plannedMilesThroughDate 0 (-1) [⟨1, 2⟩] 5 7 = 0 ∧
    Backup.plannedMilesThroughDate 0 13 [⟨1, 2⟩] 5 7 = 49 :=
  ⟨(c3_plannedThrough_spec 0 (-1) [⟨1, 2⟩] 5 7).1 (by norm_num),
   (c3_plannedThrough_spec 0 13 [⟨1, 2⟩] 5 7).2.2.2.2.2⟩

/-- C8: `plannedMilesThroughDate` is non-decreasing in the target date
(given nonnegative stage rates and cap, as guaranteed by the input
clamping in `updateStage`). -/
theorem c8_plannedThrough_monotone (planStart d1 d2 : ℤ)
    (stages : List Backup.RampStage) (cap : ℚ) (dpw : ℕ)
    (hrates : ∀ s ∈ stages, 0 ≤ s.milesPerDay) (hcap : 0 ≤ cap)
    (h1 : planStart ≤ d1) (h12 : d1 ≤ d2) :
    Backup.plannedMilesThroughDate planStart d1 stages cap dpw ≤
      Backup.plannedMilesThroughDate planStart d2 stages cap dpw := by
  unfold Backup.plannedMilesThroughDate
  rw [if_neg (not_lt.2 h1), if_neg (not_lt.2 (h1.trans h12))]
  apply Finset.sum_le_sum_of_subset_of_nonneg
  · refine Finset.range_subset.2 ?_
    unfold Backup.daysDiffInclusive
    omega
  · intro i _ _
    by_cases hi : Backup.isActiveDay i dpw
    · simpa [hi] using stageAt_nonneg hrates hcap i
    · simp [hi]

/-- C8 witness: monotonicity at the concrete scenario plan. -/
theorem c8_plannedThrough_monotone_witness :
    Backup.plannedMilesThroughDate 0 6 [⟨1, 2⟩] 5 7 ≤
      Backup.plannedMilesThroughDate 0 13 [⟨1, 2⟩] 5 7 :=
  c8_plannedThrough_monotone 0 6 13 [⟨1, 2⟩] 5 7
    (by intro s hs; simp at hs; rw [hs]; norm_num) (by norm_num)
    (by norm_num) (by norm_num)

/-- C9, counterexample: a malformed (shape-mismatched) record does not
fall back to the defaults.  The record `{"logs": 5}` loads `logs = 5`
(the JS `saved?.logs ?? []` keeps any present non-null value), not the
default empty array — and the subsequent `logs.reduce` in `totalMiles`
then throws at runtime. -/
theorem c9_persist_counterexample :
    (Backup.loadRaw 0 (some (.obj [("logs", .num 5)]))).logs = .num 5 ∧
    (Backup.defaultRaw 0).logs = .arr [] ∧
    Backup.loadRaw 0 (some (.obj [("logs", .num 5)])) ≠ Backup.defaultRaw 0 := by
  refine ⟨rfl, rfl, fun h => ?_⟩
  have hl : (Backup.Json.num 5) = (Backup.Json.arr []) :=
    congrArg Backup.RawLoadedState.logs h
  exact Backup.Json.noConfusion hl

/-- C9, amended: loading the serialized record restores every stored field
value exactly (and those raw values determine the original typed state, so
the round trip is lossless); a missing record, an unparsable record, a
non-object record, or a missing/`null` field falls back to the defaults;
but a present field of the wrong shape is kept as-is rather than
defaulted, and only fails when later consumed. -/
theorem c9_persist_roundtrip_amended :
    (∀ (s : Backup.SavedState) (today : ℤ),
        Backup.loadRaw today (some (Backup.encodeState s)) = Backup.rawOfState s) ∧
    (∀ s : Backup.SavedState, Backup.stateOfRaw (Backup.rawOfState s) = some s) ∧
    (∀ today : ℤ, Backup.loadRaw today none = Backup.defaultRaw today) ∧
    (∀ (today : ℤ) (junk : String),
        Backup.loadRaw today (some (.str junk)) = Backup.defaultRaw today) ∧
    (∀ today : ℤ, Backup.loadRaw today (some (.obj [])) = Backup.defaultRaw today) ∧
    (∀ today : ℤ,
        (Backup.loadRaw today (some (.obj [("logs", .num 5)]))).logs = .num 5) := by
  refine ⟨fun s today => rfl, fun s => ?_, fun today => rfl,
    fun today junk => rfl, fun today => rfl, fun today => rfl⟩
  obtain ⟨gm, gd, lg, pe, ps, cm, dw, rs⟩ := s
  simp [Backup.stateOfRaw, Backup.rawOfState, Backup.jsonNum, Backup.jsonBool,
    Backup.jsonInt, decodeLogs_encode, decodeRampStages_encode,
    Rat.den_intCast, Rat.num_intCast]

/-- C10: the two variants resolve the current milestone identically: the
backup variant's "last reached, else first" equals the v9 variant's
"first of the reversed table with threshold at most the total, else
first". -/
theorem c10_resolver_equivalence (table : List Milestone) (t : ℚ) (m0 : Milestone)
    (_hsorted : table.Pairwise (fun a b => a.miles < b.miles))
    (_hhead : table.head? = some m0) (_h0 : m0.miles = 0) (_ht : 0 ≤ t) :
    V9.getUnlockedMilestone table t = Backup.lastReached table t := by
  unfold V9.getUnlockedMilestone Backup.lastReached Backup.reachedMilestones
  rw [reverse_find_eq_filter_getLast]

/-- C10 witness: equivalence at the backup milestone table and total 130. -/
theorem c10_resolver_equivalence_witness :
    V9.getUnlockedMilestone Backup.DEFAULT_MILESTONES 130
      = Backup.lastReached Backup.DEFAULT_MILESTONES 130 :=
  c10_resolver_equivalence Backup.DEFAULT_MILESTONES 130 _
    (by decide) rfl rfl (by norm_num)

/-- C2, counterexample: the backup variant's ledger does not keep insertion
order — `addLog` re-sorts the stored list by date descending on every
append.  Appending an entry dated day 1 and then an entry dated day 2
stores them in the reverse of insertion order. -/
theorem c2_insertion_order_counterexample :
    (Backup.addLog Backup.DEFAULT_MILESTONES
        (Backup.addLog Backup.DEFAULT_MILESTONES [] (some 1) "a" 1).logs
        (some 1) "b" 2).logs
      ≠ [⟨"a", 1, 1⟩, ⟨"b", 2, 1⟩] := by
  have h1 : (Backup.addLog Backup.DEFAULT_MILESTONES [] (some 1) "a" 1).logs
      = [⟨"a", 1, 1⟩] := by
    norm_num [Backup.addLog, Backup.addLogLogs, List.insertionSort, List.orderedInsert]
  rw [h1]
  have h2 : (Backup.addLog Backup.DEFAULT_MILESTONES [⟨"a", 1, 1⟩] (some 1) "b" 2).logs
      = [⟨"b", 2, 1⟩, ⟨"a", 1, 1⟩] := by
    norm_num [Backup.addLog, Backup.addLogLogs, List.insertionSort,
      List.orderedInsert, Backup.dateDesc]
  rw [h2]
  decide

/-- C2, amended: the v9 variant's ledger is insertion-ordered — a
successful `addMiles` appends at the end and `lastEntry` is the appended
entry, so `editLast`/`deleteLast` always target the most recently appended
entry — while the backup variant re-sorts its stored list by date
descending on every append: its stored order is a date-descending-sorted
permutation of the appended entries, not the insertion order. -/
theorem c2_insertion_order_amended (table : List Milestone)
    (entries : List V9.Entry) (logs : List Backup.Log) (newLog : Backup.Log)
    (newId newDate : String) :
    (∀ v : ℚ, 0 < v →
      (V9.addMiles table entries (some v) newId newDate).entries
          = entries ++ [⟨newId, v, newDate, false⟩] ∧
      V9.lastEntry (V9.addMiles table entries (some v) newId newDate).entries
          = some ⟨newId, v, newDate, false⟩) ∧
    (Backup.addLogLogs logs newLog).Perm (logs ++ [newLog]) ∧
    (Backup.addLogLogs logs newLog).Sorted Backup.dateDesc := by
  refine ⟨fun v hv => ?_, List.perm_insertionSort _ _,
    List.sorted_insertionSort Backup.dateDesc _⟩
  have he : (V9.addMiles table entries (some v) newId newDate).entries
      = entries ++ [⟨newId, v, newDate, false⟩] := by
    simp [V9.addMiles, if_neg (not_le.2 hv)]
  exact ⟨he, by rw [he]; exact V9.lastEntry.eq_def _ ▸ List.getLast?_concat _⟩

/-- C2 witness: the amended ledger-order facts at a concrete append. -/
theorem c2_insertion_order_amended_witness :
    (V9.addMiles V9.MILESTONES [] (some 3) "i" "d").entries = [⟨"i", 3, "d", false⟩] ∧
    V9.lastEntry (V9.addMiles V9.MILESTONES [] (some 3) "i" "d").entries
      = some ⟨"i", 3, "d", false⟩ := by
  have h := (c2_insertion_order_amended V9.MILESTONES [] [] ⟨"x", 0, 1⟩ "i" "d").1
    3 (by norm_num)
  exact ⟨by rw [h.1]; rfl, h.2⟩

/-- C6: `saveEditLast` fails with no mutation on a `NaN` or nonpositive
input or an empty ledger; on success it replaces only the last entry
(new distance, `edited := true`, same id and date), keeps every earlier
entry and the length, and the spec scenario (a one-entry ledger edited
from 10 to 15 miles) holds. -/
theorem c6_editLast_frame (table : List Milestone) (entries : List V9.Entry)
    (value : Option ℚ) :
    (value = none → V9.saveEditLast table entries value = ⟨entries, none⟩) ∧
    (∀ v : ℚ, value = some v → v ≤ 0 →
      (V9.saveEditLast table entries value).entries = entries) ∧
    (entries = [] → (V9.saveEditLast table entries value).entries = entries) ∧
    (∀ (v : ℚ) (last : V9.Entry), value = some v → 0 < v →
      entries.getLast? = some last →
      (V9.saveEditLast table entries value).entries
          = entries.dropLast ++ [{ last with miles := v, edited := true }] ∧
      (V9.saveEditLast table entries value).entries.length = entries.length ∧
      (V9.saveEditLast table entries value).entries.dropLast = entries.dropLast ∧
      V9.lastEntry (V9.saveEditLast table entries value).entries
          = some { last with miles := v, edited := true } ∧
      ({ last with miles := v, edited := true } : V9.Entry).id = last.id ∧
      ({ last with miles := v, edited := true } : V9.Entry).date = last.date) ∧
    (V9.totalMiles [⟨"e", 10, "d", false⟩] = 10 ∧
      V9.totalMiles (V9.saveEditLast table [⟨"e", 10, "d", false⟩] (some 15)).entries = 15 ∧
      (V9.saveEditLast table [⟨"e", 10, "d", false⟩] (some 15)).entries.length = 1 ∧
      ∀ e ∈ (V9.saveEditLast table [⟨"e", 10, "d", false⟩] (some 15)).entries,
        e.edited = true) := by
  refine ⟨fun h => by rw [h]; rfl, fun v hv hv0 => ?_, fun h => ?_,
    fun v last hv hv0 hlast => ?_, ?_⟩
  · rw [hv]
    simp [V9.saveEditLast, hv0]
  · subst h
    rcases value with _ | v
    · rfl
    · simp [V9.saveEditLast]
  · have hne : entries ≠ [] := by
      intro h
      rw [h] at hlast
      cases hlast
    have he : (V9.saveEditLast table entries value).entries
        = entries.dropLast ++ [{ last with miles := v, edited := true }] := by
      rw [hv]
      simp [V9.saveEditLast, if_neg (not_le.2 hv0), hlast]
    refine ⟨he, ?_, ?_, ?_, rfl, rfl⟩
    · rw [he, List.length_append, List.length_dropLast]
      have h0 : entries.length ≠ 0 := fun h0 => hne (List.length_eq_zero.1 h0)
      simp only [List.length_cons, List.length_nil]
      omega
    · rw [he, List.dropLast_concat]
    · rw [V9.lastEntry, he, List.getLast?_concat]
  · have hs : (V9.saveEditLast table [⟨"e", 10, "d", false⟩] (some 15)).entries
        = [⟨"e", 15, "d", true⟩] := by
      simp [V9.saveEditLast]
      norm_num
    refine ⟨by norm_num [V9.totalMiles], ?_, ?_, ?_⟩
    · rw [hs]
      norm_num [V9.totalMiles]
    · rw [hs]
      rfl
    · rw [hs]
      intro e he
      simp at he
      rw [he]

/-- C6 witness: the scenario edit evaluated concretely. -/
theorem c6_editLast_frame_witness :
    (V9.saveEditLast V9.MILESTONES [⟨"e", 10, "d", false⟩] (some 15)).entries
      = [⟨"e", 15, "d", true⟩] := by
  have h := (c6_editLast_frame V9.MILESTONES [⟨"e", 10, "d", false⟩] (some 15)).2.2.2.1
    15 ⟨"e", 10, "d", false⟩ rfl (by norm_num) rfl
  rw [h.1]
  rfl

/-- C5: the current-milestone resolver returns the last milestone in table
order whose threshold is at most the total (a member of the table, with
threshold at most the total, and with the largest such threshold), and the
next-milestone resolver returns the first milestone with threshold above
the total, or none exactly when every threshold is at most the total. -/
theorem c5_milestone_resolver_spec (table : List Milestone) (t : ℚ) (m0 : Milestone)
    (hsorted : table.Pairwise (fun a b => a.miles < b.miles))
    (hhead : table.head? = some m0) (h0 : m0.miles = 0) (ht : 0 ≤ t) :
    V9.getUnlockedMilestone table t ∈ table ∧
    (V9.getUnlockedMilestone table t).miles ≤ t ∧
    (∀ hf : table.filter (fun m => decide (m.miles ≤ t)) ≠ [],
      V9.getUnlockedMilestone table t
        = (table.filter (fun m => decide (m.miles ≤ t))).getLast hf) ∧
    (∀ m ∈ table, m.miles ≤ t → m.miles ≤ (V9.getUnlockedMilestone table t).miles) ∧
    (∀ m : Milestone, V9.getNextMilestone table t = some m →
      t < m.miles ∧ m ∈ table ∧ ∀ m' ∈ table, t < m'.miles → m.miles ≤ m'.miles) ∧
    (V9.getNextMilestone table t = none ↔ ∀ m ∈ table, m.miles ≤ t) := by
  have hf : table.filter (fun m => decide (m.miles ≤ t)) ≠ [] :=
    reached_filter_ne_nil hhead h0 ht
  have hcur := getUnlockedMilestone_eq_getLast table t hf
  have hmemf : V9.getUnlockedMilestone table t
      ∈ table.filter (fun m => decide (m.miles ≤ t)) := by
    rw [hcur]
    exact List.getLast_mem hf
  obtain ⟨hmem, hle⟩ := List.mem_filter.1 hmemf
  refine ⟨hmem, by simpa using hle, fun _ => hcur, fun m hm hmt => ?_,
    fun m hfind => ?_, ?_⟩
  · have hmf : m ∈ table.filter (fun x => decide (x.miles ≤ t)) :=
      List.mem_filter.2 ⟨hm, by simpa using hmt⟩
    rw [hcur]
    exact miles_le_getLast_of_sorted (List.Pairwise.filter _ hsorted) hf m hmf
  · exact ⟨by simpa using List.find?_some hfind, List.mem_of_find?_eq_some hfind,
      find_first_gt_minimal hsorted hfind⟩
  · rw [V9.getNextMilestone, List.find?_eq_none]
    simp [not_lt]

/-- C5 witness: the resolver properties at the v9 table and total 130. -/
theorem c5_milestone_resolver_spec_witness :
    (V9.getUnlockedMilestone V9.MILESTONES 130).miles ≤ 130 ∧
    V9.getUnlockedMilestone V9.MILESTONES 130 ∈ V9.MILESTONES := by
  have h := c5_milestone_resolver_spec V9.MILESTONES 130 _ (by decide) rfl rfl
    (by norm_num)
  exact ⟨h.2.1, h.1⟩

/-- Evaluation of `addLog` on a positive input: the toast branch as written
in the source. -/
theorem addLog_pos_toast (table : List Milestone) (logs : List Backup.Log)
    {v : ℚ} (hv : 0 < v) (logId : String) (logDate : ℤ) :
    (Backup.addLog table logs (some v) logId logDate).toast
      = match (Backup.crossed table (Backup.totalMiles logs)
            (Backup.totalMiles logs + v)).getLast? with
        | some last => .unlocked last
        | none =>
          match Backup.nextMilestone table (Backup.totalMiles logs) with
          | some nm => .loggedNext nm
          | none => .questComplete := by
  simp [Backup.addLog, if_neg (not_le.2 hv)]

/-- C4: the milestones crossed between two totals are exactly those with
threshold in `(prevTotal, nextTotal]`, listed in ascending threshold
order; a crossing `addLog` raises the single unlock toast for the last
(highest) crossed milestone; a crossing `addMiles` raises the single
reward toast for the highest newly-crossed milestone; and a crossing
`saveEditLast` (whose guard `nextTotal > prevTotal && id change` is
implied by the crossing) likewise raises the single reward toast for the
highest newly-crossed milestone. -/
theorem c4_crossed_notification (table : List Milestone) (before after : ℚ)
    (logs : List Backup.Log) (entries : List V9.Entry) (m0 : Milestone)
    (newId newDate : String) (logId : String) (logDate : ℤ) :
    (∀ m : Milestone, m ∈ Backup.crossed table before after
        ↔ m ∈ table ∧ before < m.miles ∧ m.miles ≤ after) ∧
    (table.Pairwise (fun a b => a.miles < b.miles) →
      (Backup.crossed table before after).Pairwise (fun a b => a.miles < b.miles)) ∧
    (table.Pairwise (fun a b => a.miles < b.miles) →
      ∀ hc : Backup.crossed table before after ≠ [],
        ∀ m ∈ Backup.crossed table before after,
          m.miles ≤ ((Backup.crossed table before after).getLast hc).miles) ∧
    (∀ v : ℚ, 0 < v →
      ∀ hc : Backup.crossed table (Backup.totalMiles logs)
          (Backup.totalMiles logs + v) ≠ [],
        (Backup.addLog table logs (some v) logId logDate).toast
          = .unlocked ((Backup.crossed table (Backup.totalMiles logs)
              (Backup.totalMiles logs + v)).getLast hc)) ∧
    (table.Pairwise (fun a b => a.miles < b.miles) →
      (table.map Milestone.id).Nodup →
      table.head? = some m0 → m0.miles = 0 →
      0 ≤ V9.totalMiles entries →
      ∀ v : ℚ, 0 < v →
        Backup.crossed table (V9.totalMiles entries) (V9.totalMiles entries + v) ≠ [] →
        (V9.addMiles table entries (some v) newId newDate).toastMilestone
          = (Backup.crossed table (V9.totalMiles entries)
              (V9.totalMiles entries + v)).getLast?) ∧
    (table.Pairwise (fun a b => a.miles < b.miles) →
      (table.map Milestone.id).Nodup →
      table.head? = some m0 → m0.miles = 0 →
      0 ≤ V9.totalMiles entries →
      ∀ v : ℚ, 0 < v →
      ∀ last : V9.Entry, entries.getLast? = some last →
        Backup.crossed table (V9.totalMiles entries)
            (V9.totalMiles entries - last.miles + v) ≠ [] →
        (V9.saveEditLast table entries (some v)).toastMilestone
          = (Backup.crossed table (V9.totalMiles entries)
              (V9.totalMiles entries - last.miles + v)).getLast?) := by
  refine ⟨fun m => mem_crossed, fun hs => List.Pairwise.filter _ hs,
    fun hs hc => miles_le_getLast_of_sorted (List.Pairwise.filter _ hs) hc,
    fun v hv hc => ?_, fun hs hnodup hhead h0 hprev v hv hc => ?_,
    fun hs hnodup hhead h0 hprev v hv last hlast hc => ?_⟩
  · rw [addLog_pos_toast table logs hv logId logDate,
      List.getLast?_eq_getLast _ hc]
  · obtain ⟨_, hnext, hidne⟩ := unlocked_change hs hnodup hhead h0 hprev hc
    have heval : (V9.addMiles table entries (some v) newId newDate).toastMilestone
        = some (V9.getUnlockedMilestone table (V9.totalMiles entries + v)) := by
      simp [V9.addMiles, if_neg (not_le.2 hv), hidne]
    rw [heval, hnext, List.getLast?_eq_getLast _ hc]
  · obtain ⟨hlt, hnext, hidne⟩ := unlocked_change hs hnodup hhead h0 hprev hc
    have heval : (V9.saveEditLast table entries (some v)).toastMilestone
        = some (V9.getUnlockedMilestone table
            (V9.totalMiles entries - last.miles + v)) := by
      simp [V9.saveEditLast, if_neg (not_le.2 hv), hlast, hlt, hidne]
    rw [heval, hnext, List.getLast?_eq_getLast _ hc]

/-- C4 witness: the spec scenario on both paths — a total of 100 plus an
append of 30 crosses Bree (threshold 120) and raises exactly the Bree
reward toast, and editing the single 100-mile entry to 130 miles does the
same. -/
theorem c4_crossed_notification_witness :
    (V9.addMiles V9.MILESTONES [⟨"e", 100, "d", false⟩] (some 30) "x" "d2").toastMilestone
      = some ⟨"bree", "Bree", 120, "You have left comfort behind.",
          "Treat yourself to coffee."⟩ ∧
    (V9.saveEditLast V9.MILESTONES [⟨"e", 100, "d", false⟩] (some 130)).toastMilestone
      = some ⟨"bree", "Bree", 120, "You have left comfort behind.",
          "Treat yourself to coffee."⟩ := by
  have htot : V9.totalMiles [⟨"e", 100, "d", false⟩] = 100 := by
    norm_num [V9.totalMiles]
  constructor
  · have hc : Backup.crossed V9.MILESTONES (V9.totalMiles [⟨"e", 100, "d", false⟩])
        (V9.totalMiles [⟨"e", 100, "d", false⟩] + 30) ≠ [] := by
      rw [htot, show (100 : ℚ) + 30 = 130 from by norm_num]
      decide
    have h := (c4_crossed_notification V9.MILESTONES 0 0 [] [⟨"e", 100, "d", false⟩]
        _ "x" "d2" "j" 0).2.2.2.2.1 (by decide) (by decide) rfl rfl
        (by rw [htot]; norm_num) 30 (by norm_num) hc
    rw [h, htot, show (100 : ℚ) + 30 = 130 from by norm_num]
    decide
  · have hc : Backup.crossed V9.MILESTONES (V9.totalMiles [⟨"e", 100, "d", false⟩])
        (V9.totalMiles [⟨"e", 100, "d", false⟩]
          - (⟨"e", 100, "d", false⟩ : V9.Entry).miles + 130) ≠ [] := by
      rw [htot,
        show (100 : ℚ) - (⟨"e", 100, "d", false⟩ : V9.Entry).miles + 130 = 130
          from by norm_num]
      decide
    have h := (c4_crossed_notification V9.MILESTONES 0 0 [] [⟨"e", 100, "d", false⟩]
        _ "x" "d2" "j" 0).2.2.2.2.2 (by decide) (by decide) rfl rfl
        (by rw [htot]; norm_num) 130 (by norm_num) ⟨"e", 100, "d", false⟩ rfl hc
    rw [h, htot,
      show (100 : ℚ) - (⟨"e", 100, "d", false⟩ : V9.Entry).miles + 130 = 130
        from by norm_num]
    decide
